import Mathlib

/-!
Verification of the quantpy numerical core (math/special, math/integration,
math/probability, math/optimization) against its specification.

The C++ sources are embedded shallowly over the rationals: `double` values
become `ℚ`, `int` values become `Int`, and a function that can raise a
DomainError through the ERROR macro (cpp/logging.hpp, which throws) returns
`Except Err _`.  The transcendental library calls the code makes (`exp`,
`tgamma`, and `pow` with a non-integer exponent) are taken as opaque
function parameters `Exp`, `Gamma`, `rpow : ℚ → ℚ`; every claim settled
here is about the arithmetic and control structure of the code, which is
independent of the values of those functions, and each theorem quantifies
over them (or instantiates them with explicit stand-ins).
-/

/-- The error raised by the ERROR macro of cpp/logging.hpp: `_errorMsg`
throws a runtime exception, so a call that reaches ERROR produces no value. -/
inductive Err where
  | domain
deriving DecidableEq

/-- The loop of `factorial` (factorial.hpp, lines 35-39): `fact` starts at
`n` and the loop multiplies it by `i = n-1, ..., 1`.  The first argument is
the loop counter's start, embedded as the number of remaining iterations. -/
def factAux : Nat → Int → Int
  | 0, fact => fact
  | i + 1, fact => factAux i (fact * (i + 1))

/-- The value `factorial` computes once past its domain check: the loop of
factorial.hpp started at `i = n - 1` (clamped to zero iterations when
`n - 1 < 0`, as the loop condition `i > 0` does).  Note `factVal 0 = 0`
because `fact` is initialised to `n`. -/
def factVal (n : Int) : Int := factAux (n - 1).toNat n

/-- `factorial` (factorial.hpp, lines 28-43): rejects `n < 0`, otherwise
runs the downward multiplicative loop. -/
def factorial (n : Int) : Except Err Int :=
  if n < 0 then .error .domain else .ok (factVal n)

/-- The loop of `doubleFactorial` (factorial.hpp, lines 60-64): `fact`
starts at `n` and the loop multiplies it by `i = n-2, n-4, ...` while
`i > 0`.  The first argument is the loop counter's start. -/
def dfAux : Nat → Int → Int
  | 0, fact => fact
  | 1, fact => fact * 1
  | i + 2, fact => dfAux i (fact * (i + 2))

/-- The value `doubleFactorial` computes once past its domain check. -/
def dfVal (n : Int) : Int := dfAux (n - 2).toNat n

/-- `doubleFactorial` (factorial.hpp, lines 53-68). -/
def doubleFactorial (n : Int) : Except Err Int :=
  if n < 0 then .error .domain else .ok (dfVal n)

/-- `normal::moment` (normal.hpp, lines 74-87): rejects `p < 0`; for even
`p` returns `pow(std, p) * doubleFactorial(p - 1)` (the call into
factorial.hpp can itself reject), for odd `p` returns 0. -/
def normalMoment (mean std : ℚ) (p : Int) : Except Err ℚ :=
  if p < 0 then .error .domain
  else if p % 2 = 0 then
    (doubleFactorial (p - 1)).map (fun d => std ^ p.toNat * (d : ℚ))
  else .ok 0

/-- The value `trapezoidal` (trapezoidal.hpp, lines 37-72) computes once
past its domain checks: `intSum` starts at `0.5 f(a) + 0.5 f(b)` and the
parallel loop `for (int i = 1; i < n - 1; i++)` accumulates `f(a + i h)`
over `i = 1, ..., n-2`; the partial sums are merged (the spec licenses an
order-independent reduction, so the loop is embedded as a finite sum). -/
def trapezoidalVal (func : ℚ → ℚ) (a b : ℚ) (n : Int) : ℚ :=
  let h := (b - a) / (n : ℚ)
  h * ((1 / 2) * func a + (1 / 2) * func b
    + ∑ i in Finset.Ico 1 (n.toNat - 1), func (a + (i : ℚ) * h))

/-- `trapezoidal` (trapezoidal.hpp, lines 37-72): rejects `a ≥ b`, then
`n < 1`, then returns `h * intSum`. -/
def trapezoidal (func : ℚ → ℚ) (a b : ℚ) (n : Int) : Except Err ℚ :=
  if a ≥ b then .error .domain
  else if n < 1 then .error .domain
  else .ok (trapezoidalVal func a b n)

/-- The trapezoidal value the spec describes: weight 1/2 at both endpoints
and weight 1 at every interior point `a + i h`, `i = 1, ..., n-1`, with
`h = (b-a)/n`.  Stated from the spec's words for comparison with the
source embedding `trapezoidalVal`. -/
def trapezoidalSpec (func : ℚ → ℚ) (a b : ℚ) (n : Int) : ℚ :=
  let h := (b - a) / (n : ℚ)
  h * ((1 / 2) * func a + (1 / 2) * func b
    + ∑ i in Finset.Ico 1 n.toNat, func (a + (i : ℚ) * h))

/-- The value `simpson` (simpson.hpp, lines 37-83) computes once past its
domain checks: `intSum` starts at `(1/3)(f(a) + f(b))` and the parallel
loop `for (int i = 1; i < n - 1; i++)` adds `(2/3) f(a + i h)` at even `i`
and `(4/3) f(a + i h)` at odd `i`, over `i = 1, ..., n-2`. -/
def simpsonVal (func : ℚ → ℚ) (a b : ℚ) (n : Int) : ℚ :=
  let h := (b - a) / (n : ℚ)
  h * (1 / 3 * (func a + func b)
    + ∑ i in Finset.Ico 1 (n.toNat - 1),
        (if i % 2 = 0 then 2 / 3 else 4 / 3) * func (a + (i : ℚ) * h))

/-- `simpson` (simpson.hpp, lines 37-83): rejects `a ≥ b`, then `n < 1`,
then returns `h * intSum`. -/
def simpson (func : ℚ → ℚ) (a b : ℚ) (n : Int) : Except Err ℚ :=
  if a ≥ b then .error .domain
  else if n < 1 then .error .domain
  else .ok (simpsonVal func a b n)

/-- The Simpson value the spec describes: weight 1/3 at both endpoints,
weight 4/3 at odd interior indices and 2/3 at even interior indices, over
ALL interior indices `i = 1, ..., n-1`.  Stated from the spec's words for
comparison with the source embedding `simpsonVal`. -/
def simpsonSpec (func : ℚ → ℚ) (a b : ℚ) (n : Int) : ℚ :=
  let h := (b - a) / (n : ℚ)
  h * (1 / 3 * (func a + func b)
    + ∑ i in Finset.Ico 1 n.toNat,
        (if i % 2 = 0 then 2 / 3 else 4 / 3) * func (a + (i : ℚ) * h))

/-- C2: the claim says `trapezoidal(f, a, b, n)` weights every interior
point `a + i h`, `i = 1, ..., n-1`, with weight 1.  The code's loop bound
`i < n - 1` drops the last interior point: at the failing input
`f = 1, a = 0, b = 1, n = 2` the code returns `1/2` while the claimed
formula (and the trapezoidal rule the code's own documentation cites)
gives `1`, the exact integral of the constant 1 over `[0, 1]`. -/
theorem trapezoidal_drops_last_interior_point :
    trapezoidal (fun _ => (1 : ℚ)) 0 1 2 = .ok (1 / 2) ∧
    trapezoidalSpec (fun _ => (1 : ℚ)) 0 1 2 = 1 := by
  constructor
  · norm_num [trapezoidal, trapezoidalVal, Finset.sum_Ico_eq_sum_range]
  · norm_num [trapezoidalSpec, Finset.sum_Ico_eq_sum_range,
      show ((2 : Int).toNat = 2) from rfl]

/-- C3: the claim says `simpson(f, a, b, n)` weights ALL interior indices
`i = 1, ..., n-1`.  The code's loop bound `i < n - 1` drops index `n-1`:
at the failing input `f = 1, a = 0, b = 1, n = 2` the code returns `1/3`
while the claimed formula (and the Simpson rule the code's own
documentation cites) gives `1`, the exact integral of the constant 1. -/
theorem simpson_drops_last_interior_point :
    simpson (fun _ => (1 : ℚ)) 0 1 2 = .ok (1 / 3) ∧
    simpsonSpec (fun _ => (1 : ℚ)) 0 1 2 = 1 := by
  constructor
  · norm_num [simpson, simpsonVal, Finset.sum_Ico_eq_sum_range]
  · norm_num [simpsonSpec, Finset.sum_Ico_eq_sum_range,
      show ((2 : Int).toNat = 2) from rfl]

/-- C4: the claim says `factorial(0) = 1`.  The code initialises `fact = n`
and multiplies downward, so `factorial(0)` returns `0` (the loop body never
runs), contradicting the claim, the mathematical definition, and the
code's own callers, which divide by `factorial(0)`. -/
theorem factorial_zero_eq_zero : factorial 0 = .ok 0 := by
  norm_num [factorial, factVal, factAux]

/-- `pochhammer` (factorial.hpp, lines 82-91): special-cases a zero second
argument to 1 and otherwise returns `tgamma(z + a) / tgamma(z)`.  The
source declares its second parameter as `b` but the body reads `a`; the
embedding uses the body's name for that one parameter.  `Gamma` stands for
the C library's `tgamma`. -/
def pochhammer (Gamma : ℚ → ℚ) (z a : ℚ) : ℚ :=
  if a = 0 then 1 else Gamma (z + a) / Gamma z

/-- `hypergeometric::hyp0F1` (hypergeometric.hpp, lines 43-54): the loop
`for (int k = 0; k <= max_k; k++)` accumulates
`pow(z, k) / (pochhammer(b, k) * factorial(k))`.  `factorial(k)` never
reaches its domain check (`k ≥ 0`), so the embedded sum divides by the
value `factVal k` the factorial loop computes. -/
def hyp0F1 (Gamma : ℚ → ℚ) (z b : ℚ) (max_k : Int) : ℚ :=
  ∑ k in Finset.range (max_k + 1).toNat,
    z ^ k / (pochhammer Gamma b (k : ℚ) * (factVal (k : Int) : ℚ))

/-- C5: the claim says the `k = 0` term of `hyp0F1` contributes exactly 1
(since `(b)_0 = 1` and `0! = 1`), so `hyp0F1(0, b, maxTerms) = 1`.  In the
code `factorial(0)` returns 0, so the `k = 0` term divides by zero (it is
`inf` in C++ doubles and 0 in the exact rational embedding): at
`z = 0, b = 1, maxTerms = 0` the embedded code yields 0, not 1, while the
claimed term `z^0 / ((b)_0 · 0!)` is exactly 1. -/
theorem hyp0F1_zero_term_div_zero :
    hyp0F1 (fun _ => 1) 0 1 0 = 0 ∧
    (0 : ℚ) ^ 0 / (pochhammer (fun _ => 1) 1 0 * (Nat.factorial 0 : ℚ)) = 1 := by
  constructor
  · norm_num [hyp0F1, pochhammer, factVal, factAux,
      show (((0 : Int) + 1).toNat = 1) from rfl,
      show (((0 : Int) - 1).toNat = 0) from rfl]
  · norm_num [pochhammer]

/-- The double-factorial loop value: `dfAux i acc = acc * i‼`, by two-step
strong induction on the loop counter. -/
theorem dfAux_eq (i : Nat) : ∀ acc : Int, dfAux i acc = acc * (Nat.doubleFactorial i : Int) := by
  induction i using Nat.strong_induction_on with
  | _ i ih =>
    match i with
    | 0 => intro acc; simp [dfAux]
    | 1 => intro acc; simp [dfAux]
    | i + 2 =>
      intro acc
      rw [dfAux, ih i (by omega), Nat.doubleFactorial]
      push_cast
      ring

/-- For `n ≥ 1` the source's `doubleFactorial` agrees with the
mathematical double factorial. -/
theorem doubleFactorial_nat (n : Nat) (h : 1 ≤ n) :
    doubleFactorial (n : Int) = .ok (Nat.doubleFactorial n : Int) := by
  unfold doubleFactorial dfVal
  rw [if_neg (by omega)]
  match n, h with
  | 1, _ => rfl
  | n + 2, _ =>
    rw [show ((((n + 2 : ℕ)) : Int) - 2).toNat = n by omega, dfAux_eq]
    congr 1

/-- C7 counterexample: the claim says `normal::moment(mean, std, 0)`
returns 1 and that a DomainError occurs exactly when `p < 0`.  At the
concrete input `p = 0` the code takes the even branch and calls
`doubleFactorial(-1)`, whose domain check raises a DomainError. -/
theorem normal_moment_zero_cex : normalMoment 0 1 0 = .error Err.domain := by
  norm_num [normalMoment, doubleFactorial, Except.map]

/-- C7 (amended): `normal::moment(mean, std, p)` raises a DomainError for
`p < 0` AND for `p = 0` (the even branch evaluates `doubleFactorial(p-1)`,
which rejects `-1`); for even `p > 0` it returns `std^p * (p-1)‼` and for
odd `p > 0` it returns 0. -/
theorem normal_moment_characterization (mean std : ℚ) (p : Int) :
    (p ≤ 0 → normalMoment mean std p = .error Err.domain) ∧
    (0 < p → p % 2 = 0 →
      normalMoment mean std p = .ok (std ^ p.toNat * (Nat.doubleFactorial (p - 1).toNat : ℚ))) ∧
    (0 < p → p % 2 = 1 → normalMoment mean std p = .ok 0) := by
  refine ⟨fun hp => ?_, fun hp he => ?_, fun hp ho => ?_⟩
  · rcases lt_or_eq_of_le hp with hlt | heq
    · simp [normalMoment, hlt]
    · subst heq
      norm_num [normalMoment, doubleFactorial, Except.map]
  · have h1 : (1 : Nat) ≤ (p - 1).toNat := by omega
    have hcast : ((p - 1).toNat : Int) = p - 1 := by omega
    unfold normalMoment
    rw [if_neg (by omega), if_pos he, ← hcast, doubleFactorial_nat _ h1]
    rfl
  · unfold normalMoment
    rw [if_neg (by omega), if_neg (by omega)]

/-- The value `lowerIncompleteGamma` (incompleteGamma.hpp, lines 32-47)
computes once past its domain checks: the Simpson quadrature of the
integrand `pow(t, s - 1) * exp(-t)` from 0 to `x` with `n` subdivisions.
`rpow` stands for the C library's `pow` and `Exp` for `exp`. -/
def ligVal (rpow : ℚ → ℚ → ℚ) (Exp : ℚ → ℚ) (s x : ℚ) (n : Int) : ℚ :=
  simpsonVal (fun t => rpow t (s - 1) * Exp (-t)) 0 x n

/-- `lowerIncompleteGamma` (incompleteGamma.hpp, lines 32-47): rejects
`n < 1`, then `s < 1`, then delegates to `simpson` on `[0, x]`. -/
def lowerIncompleteGamma (rpow : ℚ → ℚ → ℚ) (Exp : ℚ → ℚ) (s x : ℚ) (n : Int) :
    Except Err ℚ :=
  if n < 1 then .error .domain
  else if s < 1 then .error .domain
  else simpson (fun t => rpow t (s - 1) * Exp (-t)) 0 x n

/-- `upperIncompleteGamma` (incompleteGamma.hpp, lines 58-71): rejects
`n < 1`, then `s < 1`, then returns `tgamma(s) - lowerIncompleteGamma(s, x, n)`. -/
def upperIncompleteGamma (rpow : ℚ → ℚ → ℚ) (Exp Gamma : ℚ → ℚ) (s x : ℚ) (n : Int) :
    Except Err ℚ :=
  if n < 1 then .error .domain
  else if s < 1 then .error .domain
  else (lowerIncompleteGamma rpow Exp s x n).map (fun L => Gamma s - L)

/-- On its stated domain, `lowerIncompleteGamma` passes every check and
returns the quadrature value. -/
theorem lig_ok_val (rpow : ℚ → ℚ → ℚ) (Exp : ℚ → ℚ) (s x : ℚ) (n : Int)
    (hs : 1 ≤ s) (hx : 0 < x) (hn : 1 ≤ n) :
    lowerIncompleteGamma rpow Exp s x n = .ok (ligVal rpow Exp s x n) := by
  unfold lowerIncompleteGamma simpson ligVal
  rw [if_neg (by omega), if_neg (not_lt.mpr hs), if_neg (not_le.mpr hx), if_neg (by omega)]

/-- C8: for every `s ≥ 1`, `x > 0` and subdivision count `n ≥ 1`, and every
choice of the transcendental stand-ins, the lower and upper incomplete
gamma values exist (no DomainError) and sum exactly to `Gamma s`,
independently of `n`: the code computes the upper function as
`tgamma(s) - lowerIncompleteGamma(s, x, n)`, so the complement is exact by
construction in exact arithmetic. -/
theorem incompleteGamma_complementarity (rpow : ℚ → ℚ → ℚ) (Exp Gamma : ℚ → ℚ)
    (s x : ℚ) (n : Int) (hs : 1 ≤ s) (hx : 0 < x) (hn : 1 ≤ n) :
    ∃ L U, lowerIncompleteGamma rpow Exp s x n = .ok L ∧
      upperIncompleteGamma rpow Exp Gamma s x n = .ok U ∧ L + U = Gamma s := by
  refine ⟨ligVal rpow Exp s x n, Gamma s - ligVal rpow Exp s x n,
    lig_ok_val rpow Exp s x n hs hx hn, ?_, by ring⟩
  unfold upperIncompleteGamma
  rw [if_neg (by omega), if_neg (not_lt.mpr hs), lig_ok_val rpow Exp s x n hs hx hn]
  rfl

/-- C8 witness: the complementarity theorem applied at the concrete input
`s = 1, x = 1, n = 1` with constant-1 stand-ins for `pow`, `exp`, `tgamma`. -/
theorem incompleteGamma_complementarity_witness :
    (1 : ℚ) ≤ 1 ∧ (0 : ℚ) < 1 ∧ (1 : Int) ≤ 1 ∧
    ∃ L U, lowerIncompleteGamma (fun _ _ => 1) (fun _ => 1) 1 1 1 = .ok L ∧
      upperIncompleteGamma (fun _ _ => 1) (fun _ => 1) (fun _ => 1) 1 1 1 = .ok U ∧
      L + U = 1 :=
  ⟨le_refl 1, by norm_num, le_refl 1,
    incompleteGamma_complementarity (fun _ _ => 1) (fun _ => 1) (fun _ => 1) 1 1 1
      (le_refl 1) (by norm_num) (le_refl 1)⟩

/-- `gamma::cdf` (gamma.hpp, lines 53-58): returns
`1 / tgamma(shape) * lowerIncompleteGamma(shape, rate * x)` with the
default subdivision count `n = 1000`; an exception from the inner call
propagates. -/
def gammaCdf (rpow : ℚ → ℚ → ℚ) (Exp Gamma : ℚ → ℚ) (shape rate x : ℚ) : Except Err ℚ :=
  (lowerIncompleteGamma rpow Exp shape (rate * x) 1000).map
    (fun L => 1 / Gamma shape * L)

/-- C10: `gamma::cdf(shape, rate, x)` raises a DomainError whenever
`shape < 1` (the delegated `lowerIncompleteGamma` rejects `s < 1`) and
whenever `rate * x ≤ 0` (the integration bounds handed to `simpson` are
`[0, rate * x]` and `simpson` rejects `a ≥ b`), even though the gamma
distribution itself only needs `shape > 0`. -/
theorem gamma_cdf_domain_errors (rpow : ℚ → ℚ → ℚ) (Exp Gamma : ℚ → ℚ)
    (shape rate x : ℚ) :
    (shape < 1 → gammaCdf rpow Exp Gamma shape rate x = .error Err.domain) ∧
    (rate * x ≤ 0 → gammaCdf rpow Exp Gamma shape rate x = .error Err.domain) := by
  constructor
  · intro hs
    unfold gammaCdf lowerIncompleteGamma
    rw [if_neg (by omega), if_pos hs]
    rfl
  · intro hx
    unfold gammaCdf lowerIncompleteGamma
    rw [if_neg (by omega)]
    by_cases hs : shape < 1
    · rw [if_pos hs]; rfl
    · rw [if_neg hs]
      unfold simpson
      rw [if_pos hx]
      rfl

/-- The loop state of `bisectionMethod` (rootFinding.hpp, lines 49-72):
the current interval, midpoint, and the two most recent midpoint function
values.  `end_` stands for the C++ variable `end` (a Lean keyword). -/
structure BisectState where
  start : ℚ
  end_ : ℚ
  mid : ℚ
  func_mid : ℚ
  last_func_mid : ℚ
deriving DecidableEq

/-- The loop guard of rootFinding.hpp, line 58: the loop RUNS while
`abs(func_mid - last_func_mid) > atol` AND
`abs((func_mid - last_func_mid) / func_mid) > rtol` (the source combines
the two continuation tests with `&`). -/
def bisectGuard (atol rtol : ℚ) (s : BisectState) : Prop :=
  |s.func_mid - s.last_func_mid| > atol ∧
  |(s.func_mid - s.last_func_mid) / s.func_mid| > rtol

instance (atol rtol : ℚ) (s : BisectState) : Decidable (bisectGuard atol rtol s) := by
  unfold bisectGuard
  infer_instance

/-- One iteration of the bisection loop (rootFinding.hpp, lines 58-72):
remember `func_mid`, keep the half of the interval chosen by the sign of
`func_mid * func(start)`, and recompute the midpoint and its value. -/
def bisectStep (f : ℚ → ℚ) (s : BisectState) : BisectState :=
  let newStart := if s.func_mid * f s.start < 0 then s.start else s.mid
  let newEnd := if s.func_mid * f s.start < 0 then s.mid else s.end_
  let newMid := (newEnd + newStart) / 2
  { start := newStart, end_ := newEnd, mid := newMid,
    func_mid := f newMid, last_func_mid := s.func_mid }

/-- The while loop of rootFinding.hpp with explicit fuel (the source has
no iteration cap and can loop forever; `none` embeds non-termination
within the given fuel).  The loop exits, returning the final state, as
soon as the guard fails. -/
def bisectLoop (f : ℚ → ℚ) (atol rtol : ℚ) : Nat → BisectState → Option BisectState
  | 0, s => if bisectGuard atol rtol s then none else some s
  | fuel + 1, s =>
    if bisectGuard atol rtol s then bisectLoop f atol rtol fuel (bisectStep f s)
    else some s

/-- The state of rootFinding.hpp, lines 49-56, on entering the loop:
`mid = (end + start) / 2`, `func_mid = func(mid)`,
`last_func_mid = func(end)`. -/
def initState (f : ℚ → ℚ) (start end_ : ℚ) : BisectState :=
  let mid := (end_ + start) / 2
  { start := start, end_ := end_, mid := mid,
    func_mid := f mid, last_func_mid := f end_ }

/-- `bisectionMethod` (rootFinding.hpp, lines 38-76): rejects
`start >= end`, then `func(start) >= func(end)`; returns `mid`
immediately when `func(mid) == 0`, otherwise runs the loop and returns
the final midpoint.  `.ok none` embeds running out of fuel (the C++
would still be looping). -/
def bisectionMethod (f : ℚ → ℚ) (start end_ atol rtol : ℚ) (fuel : Nat) :
    Except Err (Option ℚ) :=
  if start ≥ end_ then .error .domain
  else if f start ≥ f end_ then .error .domain
  else
    let s0 := initState f start end_
    if s0.func_mid = 0 then .ok (some s0.mid)
    else
      match bisectLoop f atol rtol fuel s0 with
      | some s => .ok (some s.mid)
      | none => .ok none

/-- C1 counterexample: the claim says the loop stops only when BOTH the
absolute test and the relative test hold.  Concretely, for
`f(x) = x, start = -1, end = 3, atol = 10, rtol = 1/1000` the
preconditions hold, the loop exits at once at the entry state
(`func_mid = 1, last_func_mid = 3`), the absolute test holds
(`|1 - 3| ≤ 10`), yet the relative test fails (`|(1 - 3) / 1| > 1/1000`):
the source combines the CONTINUATION tests with AND, so it stops as soon
as one stopping test holds. -/
theorem bisection_stop_and_semantics_cex :
    ((-1 : ℚ) < 3 ∧ (fun x => x) (-1 : ℚ) < (fun x => x) (3 : ℚ)) ∧
    bisectLoop (fun x => x) 10 (1 / 1000) 0 (initState (fun x => x) (-1) 3) =
      some (initState (fun x => x) (-1) 3) ∧
    ¬ (|(initState (fun x => x) (-1 : ℚ) 3).func_mid -
          (initState (fun x => x) (-1 : ℚ) 3).last_func_mid| ≤ 10 ∧
        |((initState (fun x => x) (-1 : ℚ) 3).func_mid -
            (initState (fun x => x) (-1 : ℚ) 3).last_func_mid) /
          (initState (fun x => x) (-1 : ℚ) 3).func_mid| ≤ 1 / 1000) := by
  refine ⟨⟨by norm_num, by norm_num⟩, ?_, ?_⟩
  · rw [bisectLoop, if_neg]
    unfold bisectGuard initState
    norm_num
  · unfold initState
    norm_num

/-- C1 (amended): whenever the bisection loop stops (returns a final
state), at that state the absolute test `|f(mid) - f(prev_mid)| ≤ atol`
OR the relative test `|(f(mid) - f(prev_mid)) / f(mid)| ≤ rtol` holds:
the source's `&` joins the two CONTINUATION tests, so by De Morgan the
stopping condition is the disjunction, not the conjunction, of the two
tolerance tests. -/
theorem bisection_stop_or_semantics (f : ℚ → ℚ) (atol rtol : ℚ) (fuel : Nat)
    (s t : BisectState) (h : bisectLoop f atol rtol fuel s = some t) :
    |t.func_mid - t.last_func_mid| ≤ atol ∨
    |(t.func_mid - t.last_func_mid) / t.func_mid| ≤ rtol := by
  induction fuel generalizing s with
  | zero =>
    rw [bisectLoop] at h
    split at h
    · exact absurd h (by simp)
    · next hg =>
      cases h
      rcases not_and_or.mp hg with h1 | h1
      · exact Or.inl (not_lt.mp h1)
      · exact Or.inr (not_lt.mp h1)
  | succ n ih =>
    rw [bisectLoop] at h
    split at h
    · exact ih _ h
    · next hg =>
      cases h
      rcases not_and_or.mp hg with h1 | h1
      · exact Or.inl (not_lt.mp h1)
      · exact Or.inr (not_lt.mp h1)

/-- C1 witness: the amended stopping property applied at the concrete run
of the counterexample input. -/
theorem bisection_stop_or_semantics_witness :
    bisectLoop (fun x => x) 10 (1 / 1000) 0 (initState (fun x => x) (-1) 3) =
      some (initState (fun x => x) (-1) 3) ∧
    (|(initState (fun x => x) (-1 : ℚ) 3).func_mid -
        (initState (fun x => x) (-1 : ℚ) 3).last_func_mid| ≤ 10 ∨
      |((initState (fun x => x) (-1 : ℚ) 3).func_mid -
          (initState (fun x => x) (-1 : ℚ) 3).last_func_mid) /
        (initState (fun x => x) (-1 : ℚ) 3).func_mid| ≤ 1 / 1000) := by
  have hrun : bisectLoop (fun x => x) 10 (1 / 1000) 0
      (initState (fun x => x) (-1) 3) = some (initState (fun x => x) (-1) 3) := by
    rw [bisectLoop, if_neg]
    unfold bisectGuard initState
    norm_num
  exact ⟨hrun, bisection_stop_or_semantics (fun x => x) 10 (1 / 1000) 0 _ _ hrun⟩

/-- C9: `bisectionMethod(f, start, end, atol, rtol)` returns a value
(rather than raising a DomainError at entry) exactly when `start < end`
and `f(start) < f(end)`: the two entry checks of rootFinding.hpp,
lines 41-47, reject `start >= end` and `f(start) >= f(end)`, and past
them every path produces a result. -/
theorem bisection_preconditions (f : ℚ → ℚ) (start end_ atol rtol : ℚ) (fuel : Nat) :
    (∃ v, bisectionMethod f start end_ atol rtol fuel = .ok v) ↔
    (start < end_ ∧ f start < f end_) := by
  constructor
  · rintro ⟨v, hv⟩
    unfold bisectionMethod at hv
    by_cases h1 : start ≥ end_
    · rw [if_pos h1] at hv
      exact absurd hv (by simp)
    · rw [if_neg h1] at hv
      by_cases h2 : f start ≥ f end_
      · rw [if_pos h2] at hv
        exact absurd hv (by simp)
      · exact ⟨not_le.mp h1, not_le.mp h2⟩
  · rintro ⟨h1, h2⟩
    unfold bisectionMethod
    rw [if_neg (not_le.mpr h1), if_neg (not_le.mpr h2)]
    by_cases h0 : (initState f start end_).func_mid = 0
    · exact ⟨some (initState f start end_).mid, by rw [if_pos h0]⟩
    · rw [if_neg h0]
      cases hl : bisectLoop f atol rtol fuel (initState f start end_) with
      | none => exact ⟨none, rfl⟩
      | some s => exact ⟨some s.mid, rfl⟩

/-- The accumulation loop of `noncentralChiSquared::cdf`
(noncentralChiSquared.hpp, lines 74-76): `sum` starts at 0 and the terms
for `j = 0, 1, ...` are added in order; an exception from a term aborts
the call.  The argument is the number of executed iterations. -/
def seqSumM (g : Nat → Except Err ℚ) : Nat → Except Err ℚ
  | 0 => .ok 0
  | m + 1 => do
    let s ← seqSumM g m
    let t ← g m
    .ok (s + t)

/-- `noncentralChiSquared::cdf` (noncentralChiSquared.hpp, lines 66-81):
accumulates `(pow(lambda/2, j) / factorial(j)) *
(lowerIncompleteGamma(k/2 + j, x/2) / tgamma(k/2 + j))` for
`j = 0, ..., max_j` (the inner call uses its default `n = 1000`), then
returns `exp(-lambda/2) * sum`. -/
def ncChiSqCdf (rpow : ℚ → ℚ → ℚ) (Exp Gamma : ℚ → ℚ) (x k lam : ℚ) (max_j : Int) :
    Except Err ℚ :=
  let half_x := x / 2
  let half_k := k / 2
  (seqSumM (fun j =>
      (lowerIncompleteGamma rpow Exp (half_k + (j : ℚ)) half_x 1000).map
        (fun L => (lam / 2) ^ j / (factVal (j : Int) : ℚ) * (L / Gamma (half_k + (j : ℚ)))))
    (max_j + 1).toNat).map (fun sum => Exp (-(lam / 2)) * sum)

/-- The series the claim describes for the noncentral chi-squared cdf:
`Σ_{j=0}^{maxTerms} (λ/2)^j / j! · P(k/2 + j, x/2)` with the mathematical
factorial, `P(s, y) = lowerIncompleteGamma(s, y) / Γ(s)`, and NO prefactor
outside the sum.  Stated from the claim's words for comparison with the
source embedding `ncChiSqCdf`. -/
def ncChiSqCdfSpec (rpow : ℚ → ℚ → ℚ) (Exp Gamma : ℚ → ℚ) (x k lam : ℚ) (max_j : Int) : ℚ :=
  ∑ j in Finset.range (max_j + 1).toNat,
    (lam / 2) ^ j / (Nat.factorial j : ℚ) *
      (ligVal rpow Exp (k / 2 + (j : ℚ)) (x / 2) 1000 / Gamma (k / 2 + (j : ℚ)))

/-- When every term of the cdf loop succeeds, the loop computes the plain
finite sum of the term values. -/
theorem seqSumM_ok (g : Nat → Except Err ℚ) (v : Nat → ℚ) :
    ∀ m : Nat, (∀ j, j < m → g j = .ok (v j)) →
    seqSumM g m = .ok (∑ j in Finset.range m, v j) := by
  intro m
  induction m with
  | zero => intro _; simp [seqSumM]
  | succ m ih =>
    intro hm
    rw [seqSumM, ih (fun j hj => hm j (by omega)), hm m (by omega)]
    rw [Finset.sum_range_succ]
    rfl

/-- The Simpson quadrature value of a pointwise-positive integrand over a
valid configuration is positive. -/
theorem simpsonVal_pos (func : ℚ → ℚ) (a b : ℚ) (n : Int)
    (hf : ∀ t, 0 < func t) (hab : a < b) (hn : 1 ≤ n) :
    0 < simpsonVal func a b n := by
  unfold simpsonVal
  have hn' : (0 : ℚ) < (n : ℚ) := by
    have : (0 : Int) < n := by omega
    exact_mod_cast this
  apply mul_pos (div_pos (by linarith) hn')
  apply add_pos_of_pos_of_nonneg
  · have := hf a
    have := hf b
    linarith
  · refine Finset.sum_nonneg (fun i _ => mul_nonneg ?_ (le_of_lt (hf _)))
    split <;> norm_num

/-- C6 counterexample: the claim says the cdf is the bare truncated sum
with mathematical factorials and no prefactor.  At
`x = 2, k = 2, λ = 2, maxTerms = 0` (with constant-1 stand-ins for the
transcendentals) the embedded code returns `.ok 0` — its `j = 0` term
divides by `factorial(0) = 0` (0 in exact arithmetic, `inf` in C++
doubles) and the whole result carries the prefactor `exp(-λ/2)` — while
the claimed sum equals the positive quadrature value `P(1, 1)`, hence is
nonzero. -/
theorem ncx2_cdf_prefactor_cex :
    ncChiSqCdf (fun _ _ => 1) (fun _ => 1) (fun _ => 1) 2 2 2 0 = .ok 0 ∧
    ncChiSqCdfSpec (fun _ _ => 1) (fun _ => 1) (fun _ => 1) 2 2 2 0 ≠ 0 := by
  constructor
  · have hterm : ∀ j : ℕ, j < 1 →
        (lowerIncompleteGamma (fun _ _ => (1 : ℚ)) (fun _ => (1 : ℚ))
            (2 / 2 + (j : ℚ)) (2 / 2) 1000).map
          (fun L => (2 / 2 : ℚ) ^ j / (factVal (j : Int) : ℚ) *
            (L / (fun _ => (1 : ℚ)) (2 / 2 + (j : ℚ)))) =
        .ok ((2 / 2 : ℚ) ^ j / (factVal (j : Int) : ℚ) *
          (ligVal (fun _ _ => (1 : ℚ)) (fun _ => (1 : ℚ)) (2 / 2 + (j : ℚ)) (2 / 2) 1000 /
            (fun _ => (1 : ℚ)) (2 / 2 + (j : ℚ)))) := by
      intro j _
      have hjq : (0 : ℚ) ≤ (j : ℚ) := Nat.cast_nonneg j
      rw [lig_ok_val _ _ _ _ _ (by linarith) (by norm_num) (by norm_num)]
      rfl
    simp only [ncChiSqCdf]
    rw [show ((0 : Int) + 1).toNat = 1 from rfl]
    rw [seqSumM_ok _ _ 1 hterm]
    simp only [Except.map, Finset.sum_range_one]
    norm_num [show factVal 0 = 0 from rfl]
  · have hpos : 0 < ligVal (fun _ _ => (1 : ℚ)) (fun _ => 1)
        (2 / 2 + ((0 : ℕ) : ℚ)) (2 / 2) 1000 := by
      unfold ligVal
      exact simpsonVal_pos _ 0 (2 / 2) 1000 (fun t => by norm_num) (by norm_num) (by norm_num)
    unfold ncChiSqCdfSpec
    rw [show ((0 : Int) + 1).toNat = 1 from rfl, Finset.sum_range_one]
    simp only [Nat.factorial_zero]
    norm_num
    intro hcontra
    rw [show ((0 : ℕ) : ℚ) = 0 from rfl] at hpos
    norm_num at hpos
    exact absurd hcontra (ne_of_gt hpos)

/-- C6 (amended): for `k ≥ 2` and `x > 0` (for `k < 2` the inner
`lowerIncompleteGamma` rejects `s = k/2 < 1` at `j = 0` and the call
raises a DomainError), `noncentralChiSquared::cdf(x, k, λ, maxTerms)`
returns `exp(-λ/2)` TIMES the truncated sum
`Σ_{j=0}^{maxTerms} (λ/2)^j / factorial(j) · P(k/2 + j, x/2)`, where
`P(s, y) = lowerIncompleteGamma(s, y) / Γ(s)` and `factorial` is the
repository's factorial, whose value at `j = 0` is 0, so the `j = 0` term
divides by zero (0 in the exact embedding, `inf` in C++ doubles). -/
theorem ncx2_cdf_series_form (rpow : ℚ → ℚ → ℚ) (Exp Gamma : ℚ → ℚ)
    (x k lam : ℚ) (max_j : Int) (hk : 2 ≤ k) (hx : 0 < x) :
    ncChiSqCdf rpow Exp Gamma x k lam max_j =
      .ok (Exp (-(lam / 2)) *
        ∑ j in Finset.range (max_j + 1).toNat,
          (lam / 2) ^ j / (factVal (j : Int) : ℚ) *
            (ligVal rpow Exp (k / 2 + (j : ℚ)) (x / 2) 1000 / Gamma (k / 2 + (j : ℚ)))) := by
  have hterm : ∀ j : ℕ, j < (max_j + 1).toNat →
      (lowerIncompleteGamma rpow Exp (k / 2 + (j : ℚ)) (x / 2) 1000).map
        (fun L => (lam / 2) ^ j / (factVal (j : Int) : ℚ) *
          (L / Gamma (k / 2 + (j : ℚ)))) =
      .ok ((lam / 2) ^ j / (factVal (j : Int) : ℚ) *
        (ligVal rpow Exp (k / 2 + (j : ℚ)) (x / 2) 1000 / Gamma (k / 2 + (j : ℚ)))) := by
    intro j _
    have hjq : (0 : ℚ) ≤ (j : ℚ) := Nat.cast_nonneg j
    rw [lig_ok_val _ _ _ _ _ (by linarith) (by linarith) (by norm_num)]
    rfl
  simp only [ncChiSqCdf]
  rw [seqSumM_ok _ _ _ hterm]
  rfl

/-- C6 witness: the amended series form applied at the concrete input
`x = 2, k = 2, λ = 0, maxTerms = 0` with constant-1 transcendental
stand-ins. -/
theorem ncx2_cdf_series_form_witness :
    (2 : ℚ) ≤ 2 ∧ (0 : ℚ) < 2 ∧
    ∃ w, ncChiSqCdf (fun _ _ => 1) (fun _ => 1) (fun _ => 1) 2 2 0 0 = .ok w :=
  ⟨le_refl 2, by norm_num,
    ⟨_, ncx2_cdf_series_form (fun _ _ => 1) (fun _ => 1) (fun _ => 1) 2 2 0 0
      (le_refl 2) (by norm_num)⟩⟩
